import Mathlib

/-!
Verification development for the Context-Fabric repository.

This file gives a shallow embedding of the parts of the repository that the
checked properties are about, together with theorems settling each property.

Two kinds of definitions appear:

* direct translations of Python functions that are present in the repository
  (`has_hebrew` and `extract_hebrew` from site/scripts/create_terminal_gif.py,
  `annotation_to_string` from scripts/docs/generate_docs.py, and
  `create_results_table` from benchmarks/compare_performance.py);

* models of the core library (StringPool, CSR edges, rank/order, the compile
  pipeline and the Fabric facade), whose source is not part of the sample;
  these carry a doc comment starting `Modelled from the spec:` and follow the
  specification text, pinned where possible by the integration tests that are
  present in the sample.
-/

namespace ContextFabric

/-! ## Hebrew detection and extraction (site/scripts/create_terminal_gif.py) -/

/-- A character the source counts as Hebrew: the test in `has_hebrew` checks
membership in U+0590..U+05FF or U+FB1D..U+FB4F, and the leading character class
of the regex in `extract_hebrew` is the union of the same two intervals
(its extra interval U+0591..U+05C7 is contained in U+0590..U+05FF). -/
def hebChar (c : Char) : Bool :=
  (0x590 ≤ c.toNat && c.toNat ≤ 0x5FF) || (0xFB1D ≤ c.toNat && c.toNat ≤ 0xFB4F)

/-- Characters matched by the regex class `\s` in Python (Unicode mode):
ASCII whitespace, the C1 separators, and the Unicode space characters. -/
def pySpace (c : Char) : Bool :=
  c.toNat = 0x20 || c.toNat = 0x9 || c.toNat = 0xA || c.toNat = 0xD ||
  c.toNat = 0xB || c.toNat = 0xC ||
  c.toNat = 0x1C || c.toNat = 0x1D || c.toNat = 0x1E || c.toNat = 0x1F ||
  c.toNat = 0x85 || c.toNat = 0xA0 || c.toNat = 0x1680 ||
  (0x2000 ≤ c.toNat && c.toNat ≤ 0x200A) ||
  c.toNat = 0x2028 || c.toNat = 0x2029 ||
  c.toNat = 0x202F || c.toNat = 0x205F || c.toNat = 0x3000

/-- The separator class `[\s\-־]` of the regex in `extract_hebrew`:
whitespace, the hyphen-minus, or the Hebrew maqaf U+05BE. -/
def sepChar (c : Char) : Bool :=
  pySpace c || c.toNat = 0x2D || c.toNat = 0x5BE

/-- `has_hebrew` from create_terminal_gif.py: true iff some character lies in
U+0590..U+05FF or U+FB1D..U+FB4F. -/
def has_hebrew (s : List Char) : Bool :=
  s.any hebChar

/-- The greedy match of the regex body `H+(?:SH+)*` (with `H` the Hebrew class
and `S` the separator class) starting at the head of `s`: Python's backtracking
engine takes a maximal run of `H`, then repeatedly consumes one separator
followed by another maximal run of `H` as long as that iteration succeeds.
Character by character this consumes `c` exactly when `c` is Hebrew, or `c` is
a separator whose immediate successor is Hebrew (a separator may only appear
singly and must be followed by another Hebrew run; the match always ends on a
Hebrew character).  Returns the matched prefix and the rest of the input. -/
def hebSpan : List Char → List Char × List Char
  | [] => ([], [])
  | c :: cs =>
    if hebChar c || (sepChar c && hebChar (cs.headD ' ')) then
      let p := hebSpan cs
      (c :: p.1, p.2)
    else
      ([], c :: cs)

/-- `extract_hebrew` from create_terminal_gif.py: `re.search` tries the pattern
at each successive start position, so the match begins at the first Hebrew
character (the pattern can only start on the class `H`); the function returns
`(text[:start], match.group(), text[end:])`, or `(text, "", "")` when there is
no match. -/
def extract_hebrew : List Char → List Char × List Char × List Char
  | [] => ([], [], [])
  | c :: cs =>
    if hebChar c then
      let p := hebSpan (c :: cs)
      ([], p.1, p.2)
    else
      let q := extract_hebrew cs
      (c :: q.1, q.2.1, q.2.2)

/-! ## Annotation rendering (scripts/docs/generate_docs.py) -/

/-- The shape of a Griffe annotation value as `annotation_to_string` consumes
it: `None`, a string, some other non-dict value (rendered via `str`), or a
dict with the fields the function reads — `cls`, `name`, `left`, `right`,
`operator`, `slice`, `elements`, `canonical`.  A missing dict-valued field is
`anone` (Python `dict.get` returns `None`, which the function renders as `""`);
missing string fields are `Option.none`. -/
inductive Annot where
  | anone : Annot
  | astr : String → Annot
  | aother : String → Annot
  | adict : String → Option String → Annot → Annot → Option String →
      Annot → List Annot → Option String → Annot
deriving Repr

mutual

/-- `annotation_to_string` from generate_docs.py, translated case by case:
`None` becomes `""`; a `str` is returned unchanged; a non-dict becomes its
`str()` rendering; a dict dispatches on its `cls` field (`ExprName`,
`ExprBinOp`, `ExprSubscript`, `ExprTuple`, `ExprList`) and otherwise falls
back to its `canonical` field, then its `name` field, then `""`. -/
def annotToString : Annot → String
  | .anone => ""
  | .astr s => s
  | .aother r => r
  | .adict cls nm left right op slc elems canon =>
    if cls = "ExprName" then nm.getD ""
    else if cls = "ExprBinOp" then
      annotToString left ++ " " ++ op.getD "|" ++ " " ++ annotToString right
    else if cls = "ExprSubscript" then
      annotToString left ++ "[" ++ annotToString slc ++ "]"
    else if cls = "ExprTuple" then
      "(" ++ String.intercalate ", " (annotsToStrings elems) ++ ")"
    else if cls = "ExprList" then
      "[" ++ String.intercalate ", " (annotsToStrings elems) ++ "]"
    else
      match canon with
      | some cs => cs
      | none =>
        match nm with
        | some s => s
        | none => ""

/-- The element-wise rendering used by the `ExprTuple` and `ExprList` cases. -/
def annotsToStrings : List Annot → List String
  | [] => []
  | a :: as => annotToString a :: annotsToStrings as

end

/-! ## Benchmark results table (benchmarks/compare_performance.py)

The metric values of `create_results_table` are IEEE-754 binary64 numbers
(`time.perf_counter` differences and psutil byte counts stored in a pandas
DataFrame, read back as numpy float64 scalars).  The model below represents a
finite double by its exact rational value and rounds the exact result of each
arithmetic operation to the nearest representable double (ties to even, with
gradual underflow at the subnormal boundary), so float64 phenomena such as a
quotient of two positive values underflowing to exactly `0.0` are captured. -/

/-- Modelled from the spec: `StringPool.intern(s) -> id` during compile.
Equal strings share ids within one pool; a new string is appended and receives
the next id.  The pool is a list of strings indexed by id. -/
def intern (pool : List String) (s : String) : Nat × List String :=
  if s ∈ pool then (pool.indexOf s, pool) else (pool.length, pool ++ [s])

/-- Modelled from the spec: `StringPool.lookup(id) -> bytes`, the byte slice
`bytes[offsets[id] .. offsets[id+1]]`; on the list model this is positional
indexing. -/
def poolLookup (pool : List String) (i : Nat) : String :=
  pool.getD i ""

/-- One step of node-feature compilation: intern the record value and store
the resulting id in the per-node index. -/
def strFeatStep (acc : List String × (Nat → Nat)) (r : Nat × String) :
    List String × (Nat → Nat) :=
  let p := intern acc.1 r.2
  (p.2, fun n => if n = r.1 then p.1 else acc.2 n)

/-- Modelled from the spec: compilation of a string-valued node feature.  The
pool starts with the empty string at id `0` ("Empty string is id `0`
(sentinel)"); each record `(node, value)` interns its value and stores the
resulting id in the per-node index, whose entries default to the absence
sentinel `0` ("`feature.idx` (one id per node in declared node range, sentinel
`0` = absent)").  Returns the pool and the index. -/
def compileStrFeature (records : List (Nat × String)) :
    List String × (Nat → Nat) :=
  records.foldl strFeatStep ([""], fun _ => 0)

/-- Modelled from the spec: `NodeFeature.v(node) -> value | absent`.  An index
entry equal to the sentinel `0` is reported as "no value" (`none`); any other
id is looked up in the pool. -/
def featureV (pool : List String) (idx : Nat → Nat) (n : Nat) : Option String :=
  if idx n = 0 then none else some (poolLookup pool (idx n))

/-- Modelled from the spec: an edge record `src -> dst` optionally carrying a
value. -/
structure Edge (V : Type) where
  src : Nat
  dst : Nat
  val : Option V
deriving DecidableEq, Repr

/-- The `(src, dst)` lexicographic comparison used before CSR emission
("edges sorted by `(src, dst)` before CSR emission"). -/
def edgeLE (a b : Edge V) : Bool :=
  a.src < b.src || (a.src = b.src && a.dst ≤ b.dst)

/-- Modelled from the spec: the compiler sorts the edge records of a feature by
`(src, dst)` before emitting the forward CSR. -/
def sortEdges (es : List (Edge V)) : List (Edge V) :=
  es.mergeSort edgeLE

/-- Modelled from the spec: row `s` of the forward CSR of an edge feature —
the `(dst, value)` entries of the edges leaving `s`, in emission order (the
data column and the parallel values column of the CSR, zipped). -/
def fwdRow (es : List (Edge V)) (s : Nat) : List (Nat × Option V) :=
  (sortEdges es).filterMap (fun e => if e.src = s then some (e.dst, e.val) else none)

/-- Modelled from the spec: row `d` of the inverse CSR.  The compiler inverts
the forward CSR "by histogram + prefix-sum + scatter": the scatter walks the
forward stream in order and appends `(src, value)` to the bucket of each `dst`,
which is exactly the stable grouping of the sorted stream by `dst`. -/
def invRow (es : List (Edge V)) (d : Nat) : List (Nat × Option V) :=
  (sortEdges es).filterMap (fun e => if e.dst = d then some (e.src, e.val) else none)

/-- The adjacency (data) column of a CSR row. -/
def rowData (row : List (Nat × Option V)) : List Nat :=
  row.map Prod.fst

/-- The parallel values column of a CSR row. -/
def rowValues (row : List (Nat × Option V)) : List (Option V) :=
  row.map Prod.snd

/-- Modelled from the spec: the data a loaded corpus exposes to the computed
indices — `maxSlot`, `maxNode`, the type of every node and the slot coverage
of every non-slot node (section 3, entities otype and oslots). -/
structure Corpus where
  maxSlot : Nat
  maxNode : Nat
  otype : Nat → String
  oslots : Nat → List Nat

/-- Modelled from the spec: `OslotsFeature.s(node)`; for a slot the virtual row
`[slot]`, otherwise the stored row. -/
def slotsOf (c : Corpus) (n : Nat) : List Nat :=
  if n ≤ c.maxSlot then [n] else c.oslots n

/-- The minimum slot covered by a node (rows are strictly increasing, so the
head of the row). -/
def minS (c : Corpus) (n : Nat) : Nat :=
  (slotsOf c n).headD 0

/-- The maximum slot covered by a node (the last entry of the row). -/
def maxS (c : Corpus) (n : Nat) : Nat :=
  (slotsOf c n).getLastD 0

/-- Modelled from the spec: the canonical sort key of a node,
`(min_slot, -max_slot, -embedding_level)` with the embedding level derived
from the oslots size; the descending components are encoded by subtracting
from a bound, which is order-reversing on the relevant range. -/
def nodeKey (c : Corpus) (n : Nat) : Nat × Nat × Nat :=
  (minS c n, c.maxSlot + 1 - maxS c n, c.maxSlot + 1 - (slotsOf c n).length)

/-- Lexicographic comparison of sort keys. -/
def tripleLE : Nat × Nat × Nat → Nat × Nat × Nat → Bool
  | (a1, a2, a3), (b1, b2, b3) =>
    a1 < b1 || (a1 = b1 && (a2 < b2 || (a2 = b2 && a3 ≤ b3)))

/-- The node ids of a corpus, `1..maxNode`, in id order. -/
def nodes (c : Corpus) : List Nat :=
  List.range' 1 c.maxNode

/-- Modelled from the spec: `order` — all nodes sorted by the canonical key;
`order[i]` is the node at canonical position `i`. -/
def order (c : Corpus) : List Nat :=
  (nodes c).mergeSort (fun a b => tripleLE (nodeKey c a) (nodeKey c b))

/-- Modelled from the spec: `rank[node]` — the canonical position of a node,
the inverse of `order`. -/
def rank (c : Corpus) (n : Nat) : Nat :=
  (order c).indexOf n

/-- Modelled from the spec: the on-disk state a compile manipulates — the
(possibly present) completed store directory `<store>/<version>/` that readers
observe, and the temporary directory `<store>/<version>.tmp/` that only the
compiler sees.  A store is modelled as the list of chunks written into it. -/
structure Disk (β : Type) where
  store : Option (List β)
  tmp : Option (List β)
deriving DecidableEq, Repr

/-- Modelled from the spec: the successive on-disk states while the compiler
writes its output into the temporary directory (one chunk at a time); the
reader-visible store never changes during this phase. -/
def writeStates (d0 : Disk β) (out : List β) : List (Disk β) :=
  (List.range (out.length + 1)).map (fun k => ⟨d0.store, some (out.take k)⟩)

/-- Modelled from the spec: a successful compile — write into `.tmp/`, fsync,
then atomically rename `.tmp/` to the store directory ("compile into
`<store>/<version>.tmp/`, fsync, then rename to `<store>/<version>/`"). -/
def compileSuccessTrace (d0 : Disk β) (out : List β) : List (Disk β) :=
  writeStates d0 out ++ [⟨some out, none⟩]

/-- Modelled from the spec: a compile that errors after `k` chunks — the
`.tmp/` directory is removed and no rename occurs ("Compile errors never
partially succeed — the `.tmp/` directory is removed and no rename
occurs"). -/
def compileErrorTrace (d0 : Disk β) (out : List β) (k : Nat) : List (Disk β) :=
  (writeStates d0 out).take (k + 1) ++ [⟨d0.store, none⟩]

/-- Modelled from the spec: one textual feature file, named by its feature and
carrying its edge records (section 4.4). -/
structure FeatSrc (V : Type) where
  fname : String
  body : List (Edge V)

/-- Modelled from the spec: compiling one feature file is a pure function of
that file alone (features compile "in parallel ... no ordering dependence
between files"); its emitted payload has the edges sorted by `(src, dst)`. -/
def compileFeature (f : FeatSrc V) : List (Edge V) :=
  sortEdges f.body

/-- Modelled from the spec: the compiled store as a map from feature name to
emitted payload, produced by processing the feature files in the order some
work-stealing schedule happens to pick. -/
def storeOf (schedule : List (FeatSrc V)) : String → Option (List (Edge V)) :=
  schedule.foldl
    (fun acc f => fun k => if k = f.fname then some (compileFeature f) else acc k)
    (fun _ => none)

/-- Modelled from the spec: `EdgeFeature.f(node)` — the targets of the edges
leaving the node, an empty slice when there are none. -/
def Ef (es : List (Edge V)) (n : Nat) : List Nat :=
  rowData (fwdRow es n)

/-- Modelled from the spec: `EdgeFeature.t(node)` — the sources of the edges
entering the node. -/
def Et (es : List (Edge V)) (n : Nat) : List Nat :=
  rowData (invRow es n)

/-- Modelled from the spec: `EdgeFeature.b(node)` — the symmetric
neighborhood, the union of `f` and `t`. -/
def Eb (es : List (Edge V)) (n : Nat) : List Nat :=
  Ef es n ++ Et es n

/-- Strict inclusion of slot sets: every slot of `xs` occurs in `ys` and not
conversely (the embedding relation of the locality API). -/
def properSub (xs ys : List Nat) : Bool :=
  xs.all (fun a => a ∈ ys) && !(ys.all (fun a => a ∈ xs))

/-- Modelled from the spec: `L.u(node)` — the embedders of a node (nodes whose
slot set is a proper superset), in canonical order. -/
def Lu (c : Corpus) (n : Nat) : List Nat :=
  (order c).filter (fun m => properSub (slotsOf c n) (slotsOf c m))

/-- Modelled from the spec: `L.d(node)` — the embeddees of a node (nodes whose
slot set is a proper subset), in canonical order. -/
def Ld (c : Corpus) (n : Nat) : List Nat :=
  (order c).filter (fun m => properSub (slotsOf c m) (slotsOf c n))

/-- Modelled from the spec: `L.n(node)` — the other nodes sharing at least one
slot with the node, in canonical order. -/
def Ln (c : Corpus) (n : Nat) : List Nat :=
  (order c).filter (fun m => m ≠ n && (slotsOf c m).any (fun a => a ∈ slotsOf c n))

/-- The nodes of the same otype as `n`, in canonical order. -/
def typePeers (c : Corpus) (n : Nat) : List Nat :=
  (order c).filter (fun m => c.otype m = c.otype n)

/-- The element immediately before `n` in `l`, as a zero-or-one element list
(empty when `n` is absent or first). -/
def prevIn (l : List Nat) (n : Nat) : List Nat :=
  if n ∈ l then
    match (l.takeWhile (fun m => m ≠ n)).getLast? with
    | none => []
    | some m => [m]
  else []

/-- Modelled from the spec: `L.p(node)` — the previous sibling at the same
otype level, empty when undefined. -/
def Lp (c : Corpus) (n : Nat) : List Nat :=
  prevIn (typePeers c n) n

/-- Modelled from the spec: `L.x(node)` — the next sibling at the same otype
level, empty when undefined. -/
def Lx (c : Corpus) (n : Nat) : List Nat :=
  prevIn (typePeers c n).reverse n

/-- Modelled from the spec and pinned by tests/integration_tests/test_loading.py:
the Fabric facade bound to a location.  `features` is the list of feature names
discovered at the location, `none` when the location does not exist or holds no
features. -/
structure Fabric where
  features : Option (List String)

/-- Modelled from the spec and pinned by tests/integration_tests/test_loading.py:
the value a call to `load`/`loadAll` evaluates to.  `api fs` is an Api handle
wired over the loaded features `fs`; `ok` is the Python `True` that
`load(..., add=True)` returns on success; `failed` is the Python `False`
returned when loading fails (for example, no features found at the
location). -/
inductive LoadResult where
  | api (fs : List String) : LoadResult
  | ok : LoadResult
  | failed : LoadResult
deriving DecidableEq, Repr

/-- True exactly on the `api` constructor. -/
def isApi : LoadResult → Bool
  | .api _ => true
  | _ => false

/-- Modelled from the spec (`load(features) -> Api`) and pinned by
tests/integration_tests/test_loading.py: with no features at the location the
call fails with the explicit value `False`
(test_load_nonexistent_path, test_load_empty_directory); with `add=True` a
successful call returns `True`, not an Api (test_load_with_add); otherwise an
Api over the requested features is returned.  An empty request means all
features (`loadAll`). -/
def load (fab : Fabric) (requested : List String) (add : Bool) : LoadResult :=
  match fab.features with
  | none => .failed
  | some fs =>
    if add then .ok
    else .api (fs.filter (fun f => requested.isEmpty || f ∈ requested))

/-- Modelled from the spec: `loadAll() -> Api`, loading every discovered
feature. -/
def loadAll (fab : Fabric) : LoadResult :=
  load fab [] false


/-! ## Sample inputs used by the concrete witnesses and counterexamples -/

/-- The tiny corpus of spec scenario S1: three word slots and two sentences
covering slots `[1,2]` and `[2,3]`. -/
def sampleCorpus : Corpus where
  maxSlot := 3
  maxNode := 5
  otype := fun n => if n ≤ 3 then "word" else "sentence"
  oslots := fun n => if n = 4 then [1, 2] else if n = 5 then [2, 3] else []

/-- A corpus of two slots and one sentence, each node with its own otype, used
to witness the empty-result accessor cases. -/
def tinyCorpus : Corpus where
  maxSlot := 2
  maxNode := 3
  otype := fun n => if n = 1 then "word" else if n = 2 then "pron" else "sentence"
  oslots := fun n => if n = 3 then [2] else []

/-- A one-edge edge feature touching only nodes 2 and 3. -/
def sampleEdges : List (Edge Nat) := [⟨2, 3, none⟩]

/-- A sample feature file. -/
def featA : FeatSrc Nat := ⟨"parent", [⟨2, 4, none⟩, ⟨1, 4, some 9⟩]⟩

/-- A second sample feature file with a distinct name. -/
def featB : FeatSrc Nat := ⟨"crossref", [⟨3, 5, none⟩]⟩

/-! ## Theorems -/

theorem hebSpan_append (s : List Char) : (hebSpan s).1 ++ (hebSpan s).2 = s := by
  induction s with
  | nil => rfl
  | cons c cs ih =>
    by_cases h : (hebChar c || (sepChar c && hebChar (cs.headD ' '))) = true
    · simp only [hebSpan, h, if_true]
      simpa using ih
    · simp only [hebSpan]
      rw [if_neg h]
      rfl

theorem hebSpan_ne_nil {c : Char} (cs : List Char) (h : hebChar c = true) :
    (hebSpan (c :: cs)).1 ≠ [] := by
  simp [hebSpan, h]

/-- Claim C9: for every input string, the triple returned by `extract_hebrew`
concatenates back to the input, and its middle (Hebrew) component is non-empty
exactly when `has_hebrew` holds, i.e. when some character lies in
U+0590..U+05FF or U+FB1D..U+FB4F. -/
theorem extract_hebrew_round_trip (s : List Char) :
    (extract_hebrew s).1 ++ (extract_hebrew s).2.1 ++ (extract_hebrew s).2.2 = s ∧
    ((extract_hebrew s).2.1 ≠ [] ↔ has_hebrew s = true) := by
  induction s with
  | nil => simp [extract_hebrew, has_hebrew]
  | cons c cs ih =>
    by_cases h : hebChar c = true
    · refine ⟨?_, ?_⟩
      · simp only [extract_hebrew, h, if_true]
        simpa using hebSpan_append (c :: cs)
      · simp only [extract_hebrew, h, if_true]
        constructor
        · intro _
          simp [has_hebrew, h]
        · intro _
          exact hebSpan_ne_nil cs h
    · obtain ⟨ih1, ih2⟩ := ih
      refine ⟨?_, ?_⟩
      · simp only [extract_hebrew, h, if_false]
        simpa using ih1
      · simp only [extract_hebrew, h, if_false]
        rw [show has_hebrew (c :: cs) = has_hebrew cs by
          simp [has_hebrew, List.any_cons, h]]
        exact ih2

/-- Claim C10: `annotation_to_string` is a total (hence terminating) function
of finite annotation values — `annotToString` is accepted by structural
recursion — and it returns the empty string for `None` and returns any string
argument unchanged. -/
theorem annotToString_total_base (s : String) :
    annotToString Annot.anone = "" ∧ annotToString (Annot.astr s) = s :=
  ⟨rfl, rfl⟩

theorem mem_sortEdges {V : Type} {es : List (Edge V)} {e : Edge V} :
    e ∈ sortEdges es ↔ e ∈ es :=
  (List.mergeSort_perm es edgeLE).mem_iff

theorem mem_fwdRow {V : Type} {es : List (Edge V)} {s d : Nat} {v : Option V} :
    (d, v) ∈ fwdRow es s ↔ Edge.mk s d v ∈ es := by
  rw [fwdRow, List.mem_filterMap]
  constructor
  · rintro ⟨e, he, hcond⟩
    by_cases h : e.src = s
    · rw [if_pos h] at hcond
      have h2 := Option.some.inj hcond
      have h3 : e = ⟨s, d, v⟩ := by
        obtain ⟨es', ds', vs'⟩ := e
        simp only [Prod.mk.injEq] at h2
        simp_all
      rw [← mem_sortEdges]
      rwa [h3] at he
    · rw [if_neg h] at hcond
      exact absurd hcond (by simp)
  · intro he
    exact ⟨⟨s, d, v⟩, mem_sortEdges.mpr he, by simp⟩

theorem mem_invRow {V : Type} {es : List (Edge V)} {s d : Nat} {v : Option V} :
    (s, v) ∈ invRow es d ↔ Edge.mk s d v ∈ es := by
  rw [invRow, List.mem_filterMap]
  constructor
  · rintro ⟨e, he, hcond⟩
    by_cases h : e.dst = d
    · rw [if_pos h] at hcond
      have h2 := Option.some.inj hcond
      have h3 : e = ⟨s, d, v⟩ := by
        obtain ⟨es', ds', vs'⟩ := e
        simp only [Prod.mk.injEq] at h2
        simp_all
      rw [← mem_sortEdges]
      rwa [h3] at he
    · rw [if_neg h] at hcond
      exact absurd hcond (by simp)
  · intro he
    exact ⟨⟨s, d, v⟩, mem_sortEdges.mpr he, by simp⟩

theorem rowZip {V : Type} (row : List (Nat × Option V)) :
    (rowData row).length = (rowValues row).length ∧
    (rowData row).zip (rowValues row) = row := by
  constructor
  · simp [rowData, rowValues]
  · rw [rowData, rowValues, List.zip_map']
    simp

/-- Claim C3: for every compiled edge feature, the forward and inverse CSRs
are exact transposes — `d` appears in `forward[s]` with value `v` iff `s`
appears in `inverse[d]` with value `v` — and in both CSRs the values column
aligns positionally with the adjacency column (zipping them recovers the
rows). -/
theorem edge_csr_transpose {V : Type} (es : List (Edge V)) (s d : Nat) (v : Option V) :
    ((d, v) ∈ fwdRow es s ↔ (s, v) ∈ invRow es d) ∧
    (rowData (fwdRow es s)).length = (rowValues (fwdRow es s)).length ∧
    (rowData (fwdRow es s)).zip (rowValues (fwdRow es s)) = fwdRow es s ∧
    (rowData (invRow es d)).length = (rowValues (invRow es d)).length ∧
    (rowData (invRow es d)).zip (rowValues (invRow es d)) = invRow es d :=
  ⟨mem_fwdRow.trans mem_invRow.symm,
   (rowZip _).1, (rowZip _).2, (rowZip _).1, (rowZip _).2⟩

/-- Claim C5: compilation is atomic.  Along a successful compile trace the
reader-visible store is always either the prior store or the complete output
(never a half-written store), and the final state has the complete store with
the temporary directory gone; along an erroring trace the store is unchanged
throughout and the final state removes the temporary directory, leaving the
prior on-disk state. -/
theorem compile_atomic {β : Type} (d0 : Disk β) (out : List β) (k : Nat) :
    (∀ d ∈ compileSuccessTrace d0 out, d.store = d0.store ∨ d.store = some out) ∧
    (compileSuccessTrace d0 out).getLast? = some ⟨some out, none⟩ ∧
    (∀ d ∈ compileErrorTrace d0 out k, d.store = d0.store) ∧
    (compileErrorTrace d0 out k).getLast? = some ⟨d0.store, none⟩ := by
  refine ⟨?_, ?_, ?_, ?_⟩
  · intro d hd
    rcases List.mem_append.mp hd with h | h
    · left
      obtain ⟨j, _, rfl⟩ := List.mem_map.mp h
      rfl
    · right
      simp only [List.mem_singleton] at h
      rw [h]
  · rw [compileSuccessTrace, List.getLast?_concat]
  · intro d hd
    rcases List.mem_append.mp hd with h | h
    · obtain ⟨j, _, rfl⟩ := List.mem_map.mp (List.mem_of_mem_take h)
      rfl
    · simp only [List.mem_singleton] at h
      rw [h]
  · rw [compileErrorTrace, List.getLast?_concat]

/-- Claim C5 witness: a mid-write state on each trace of a concrete compile
over a prior store. -/
theorem compile_atomic_witness :
    ((⟨some [7], some []⟩ : Disk Nat) ∈ compileSuccessTrace ⟨some [7], none⟩ [1, 2]) ∧
    ((⟨some [7], some []⟩ : Disk Nat).store = (⟨some [7], none⟩ : Disk Nat).store ∨
      (⟨some [7], some []⟩ : Disk Nat).store = some [1, 2]) ∧
    ((⟨some [7], some [1]⟩ : Disk Nat) ∈ compileErrorTrace ⟨some [7], none⟩ [1, 2] 1) ∧
    ((⟨some [7], some [1]⟩ : Disk Nat).store = (⟨some [7], none⟩ : Disk Nat).store) :=
  ⟨by decide, (compile_atomic ⟨some [7], none⟩ [1, 2] 1).1 _ (by decide),
   by decide, (compile_atomic ⟨some [7], none⟩ [1, 2] 1).2.2.1 _ (by decide)⟩

/-- Claim C1 counterexample: at a location with no features (the nonexistent
path of test_load_nonexistent_path), `loadAll` evaluates to the explicit
failure value `False`, which is not an Api handle — so load/loadAll do not
return an Api for every location. -/
theorem loadAll_no_features_not_api :
    loadAll ⟨none⟩ = LoadResult.failed ∧ isApi (loadAll ⟨none⟩) = false := by
  constructor <;> rfl

/-- Claim C1 (amended): every call to `load`/`loadAll` returns an explicit
result value and never raises: an Api handle exactly when features were found
and `add` is not set, the explicit success value `True` for `add=True`, and
the explicit failure value `False` exactly when loading fails. -/
theorem load_explicit_result (fab : Fabric) (requested : List String) :
    (isApi (load fab requested false) = true ↔ fab.features ≠ none) ∧
    (load fab requested false = .failed ↔ fab.features = none) ∧
    (∀ fs, fab.features = some fs →
      load fab requested true = .ok ∧
      load fab requested false =
        .api (fs.filter (fun f => requested.isEmpty || f ∈ requested))) ∧
    (isApi (loadAll fab) = true ↔ fab.features ≠ none) := by
  cases h : fab.features <;> simp [load, loadAll, isApi, h]

/-- Claim C1 witness: the amended theorem applied to a location holding two
features. -/
theorem load_explicit_result_witness :
    ((Fabric.mk (some ["otype", "word"])).features = some ["otype", "word"]) ∧
    (load ⟨some ["otype", "word"]⟩ [] true = .ok ∧
      load ⟨some ["otype", "word"]⟩ [] false =
        .api ((["otype", "word"]).filter
          (fun f => ([] : List String).isEmpty || f ∈ ([] : List String)))) :=
  ⟨rfl, (load_explicit_result ⟨some ["otype", "word"]⟩ []).2.2.1 _ rfl⟩

/-- Claim C6: compilation output does not depend on the schedule in which the
work-stealing pool happens to process the feature files — any two schedules
(permutations of the same file set, file names distinct) produce the identical
store, so repeated runs on identical inputs are byte-identical. -/
theorem compile_deterministic {V : Type} (s1 s2 : List (FeatSrc V))
    (hperm : s1.Perm s2) (hnodup : (s1.map FeatSrc.fname).Nodup) :
    storeOf s1 = storeOf s2 := by
  unfold storeOf
  refine hperm.foldl_eq' ?_ _
  intro x hx y hy z
  funext k
  show (if k = y.fname then some (compileFeature y)
        else if k = x.fname then some (compileFeature x) else z k)
      = (if k = x.fname then some (compileFeature x)
        else if k = y.fname then some (compileFeature y) else z k)
  by_cases hxk : k = x.fname
  · by_cases hyk : k = y.fname
    · have hxy : x = y :=
        List.inj_on_of_nodup_map hnodup hx hy (hxk ▸ hyk ▸ rfl)
      subst hxy
      rfl
    · simp only [if_pos hxk, if_neg hyk]
  · by_cases hyk : k = y.fname
    · simp only [if_neg hxk, if_pos hyk]
    · simp only [if_neg hxk, if_neg hyk]

/-- Claim C6 witness: two schedules of the same two feature files yield the
same store. -/
theorem compile_deterministic_witness :
    ([featA, featB].Perm [featB, featA]) ∧
    (([featA, featB].map FeatSrc.fname).Nodup) ∧
    storeOf [featA, featB] = storeOf [featB, featA] :=
  ⟨List.Perm.swap featB featA [], by decide,
   compile_deterministic _ _ (List.Perm.swap featB featA []) (by decide)⟩

/-- Claim C4: `order` is a permutation of the node range `[1..maxNode]`;
`rank[order[i]] = i` for every canonical position `i`; for every node `n`,
`rank[n]` is a valid position with `order[rank[n]] = n`; and `rank` is
injective on nodes, so rank and order are mutually inverse permutations. -/
theorem rank_order_inverse (c : Corpus) :
    (order c).Perm (nodes c) ∧
    (∀ i, i < c.maxNode → rank c ((order c).getD i 0) = i) ∧
    (∀ n, n ∈ nodes c → rank c n < c.maxNode ∧ (order c).getD (rank c n) 0 = n) ∧
    (∀ m n, m ∈ nodes c → n ∈ nodes c → rank c m = rank c n → m = n) := by
  have hperm : (order c).Perm (nodes c) := List.mergeSort_perm _ _
  have hlen : (order c).length = c.maxNode := by
    rw [hperm.length_eq, nodes, List.length_range']
  have hnd : (order c).Nodup := by
    rw [hperm.nodup_iff]
    exact List.nodup_range' _ _
  have main : ∀ n, n ∈ nodes c →
      rank c n < c.maxNode ∧ (order c).getD (rank c n) 0 = n := by
    intro n hn
    have hmem : n ∈ order c := hperm.mem_iff.mpr hn
    have hidx : List.indexOf n (order c) < (order c).length :=
      List.indexOf_lt_length.mpr hmem
    refine ⟨hlen ▸ hidx, ?_⟩
    rw [rank, List.getD_eq_getElem?_getD, List.getElem?_eq_getElem hidx,
      Option.getD_some, List.getElem_indexOf hidx]
  refine ⟨hperm, ?_, main, ?_⟩
  · intro i hi
    have hi' : i < (order c).length := hlen ▸ hi
    rw [rank, List.getD_eq_getElem?_getD, List.getElem?_eq_getElem hi',
      Option.getD_some, List.indexOf_getElem hnd i hi']
  · intro m n hm hn hr
    have h1 := (main m hm).2
    have h2 := (main n hn).2
    rw [← h1, ← h2, hr]

/-- Claim C4 witness: the theorem applied to the tiny corpus of spec scenario
S1, at position 0 and node 1. -/
theorem rank_order_inverse_witness :
    (0 < sampleCorpus.maxNode ∧ 1 ∈ nodes sampleCorpus) ∧
    rank sampleCorpus ((order sampleCorpus).getD 0 0) = 0 ∧
    rank sampleCorpus 1 < sampleCorpus.maxNode ∧
    (order sampleCorpus).getD (rank sampleCorpus 1) 0 = 1 :=
  ⟨⟨by decide, by decide⟩,
   (rank_order_inverse sampleCorpus).2.1 0 (by decide),
   ((rank_order_inverse sampleCorpus).2.2.1 1 (by decide)).1,
   ((rank_order_inverse sampleCorpus).2.2.1 1 (by decide)).2⟩

theorem filter_eq_singleton {l : List Nat} {p : Nat → Bool} {n : Nat}
    (hnd : l.Nodup) (hn : n ∈ l) (hp : ∀ m ∈ l, p m = true ↔ m = n) :
    l.filter p = [n] := by
  induction l with
  | nil => cases hn
  | cons a l ih =>
    rcases List.mem_cons.mp hn with rfl | hmem
    · rw [List.filter_cons_of_pos ((hp n (List.mem_cons_self n l)).mpr rfl)]
      have hrest : l.filter p = [] := by
        rw [List.filter_eq_nil_iff]
        intro m hm hpm
        have := (hp m (List.mem_cons_of_mem n hm)).mp hpm
        subst this
        exact (List.nodup_cons.mp hnd).1 hm
      rw [hrest]
    · have hpa : ¬p a = true := by
        intro h
        have := (hp a (List.mem_cons_self a l)).mp h
        subst this
        exact (List.nodup_cons.mp hnd).1 hmem
      rw [List.filter_cons_of_neg hpa]
      exact ih (List.nodup_cons.mp hnd).2 hmem
        (fun m hm => hp m (List.mem_cons_of_mem a hm))

/-- Claim C7: every query accessor over a loaded store returns an empty
sequence — not an error — when the requested relation does not exist for the
node: edge accessors `f`/`t`/`b` with no incident edges, locality `u`/`d`/`n`
with no embedder/embeddee/neighbour, and `p`/`x` with no sibling of the same
otype; only the feature-value accessor `v` returns the distinguished absent
value. -/
theorem query_empty_when_undefined {V : Type} (c : Corpus) (es : List (Edge V))
    (n : Nat) (pool : List String) (idx : Nat → Nat) :
    ((∀ e ∈ es, e.src ≠ n) → Ef es n = []) ∧
    ((∀ e ∈ es, e.dst ≠ n) → Et es n = []) ∧
    ((∀ e ∈ es, e.src ≠ n ∧ e.dst ≠ n) → Eb es n = []) ∧
    ((∀ m ∈ nodes c, properSub (slotsOf c n) (slotsOf c m) = false) → Lu c n = []) ∧
    ((∀ m ∈ nodes c, properSub (slotsOf c m) (slotsOf c n) = false) → Ld c n = []) ∧
    ((∀ m ∈ nodes c, m = n ∨ ∀ a ∈ slotsOf c m, a ∉ slotsOf c n) → Ln c n = []) ∧
    ((∀ m ∈ nodes c, m ≠ n → c.otype m ≠ c.otype n) → Lp c n = [] ∧ Lx c n = []) ∧
    (idx n = 0 → featureV pool idx n = none) := by
  have hmemord : ∀ m, m ∈ order c ↔ m ∈ nodes c :=
    fun m => (List.mergeSort_perm (nodes c) _).mem_iff
  have hnd : (order c).Nodup :=
    (List.mergeSort_perm (nodes c) _).nodup_iff.mpr (List.nodup_range' _ _)
  have hfwd : (∀ e ∈ es, e.src ≠ n) → fwdRow es n = [] := by
    intro h
    rw [fwdRow, List.filterMap_eq_nil_iff]
    intro e he
    rw [if_neg (h e (mem_sortEdges.mp he))]
  have hinv : (∀ e ∈ es, e.dst ≠ n) → invRow es n = [] := by
    intro h
    rw [invRow, List.filterMap_eq_nil_iff]
    intro e he
    rw [if_neg (h e (mem_sortEdges.mp he))]
  refine ⟨?_, ?_, ?_, ?_, ?_, ?_, ?_, ?_⟩
  · intro h
    rw [Ef, hfwd h]
    rfl
  · intro h
    rw [Et, hinv h]
    rfl
  · intro h
    rw [Eb, Ef, hfwd (fun e he => (h e he).1), Et, hinv (fun e he => (h e he).2)]
    rfl
  · intro h
    rw [Lu, List.filter_eq_nil_iff]
    intro m hm
    simp [h m ((hmemord m).mp hm)]
  · intro h
    rw [Ld, List.filter_eq_nil_iff]
    intro m hm
    simp [h m ((hmemord m).mp hm)]
  · intro h
    rw [Ln, List.filter_eq_nil_iff]
    intro m hm
    rcases h m ((hmemord m).mp hm) with rfl | hall
    · simp
    · simp only [Bool.and_eq_true, not_and]
      intro _
      simp only [Bool.not_eq_true, List.any_eq_false]
      intro a ha
      simp [hall a ha]
  · intro h
    by_cases hn : n ∈ nodes c
    · have hpeers : typePeers c n = [n] := by
        apply filter_eq_singleton hnd ((hmemord n).mpr hn)
        intro m hm
        constructor
        · intro hpm
          by_contra hmn
          exact h m ((hmemord m).mp hm) hmn (by simpa using hpm)
        · rintro rfl
          simp
      constructor
      · rw [Lp, hpeers]
        simp [prevIn]
      · rw [Lx, hpeers]
        simp [prevIn]
    · have hpeers : typePeers c n = [] := by
        rw [typePeers, List.filter_eq_nil_iff]
        intro m hm
        have hmn : m ≠ n := by
          rintro rfl
          exact hn ((hmemord m).mp hm)
        simp [h m ((hmemord m).mp hm) hmn]
      constructor
      · rw [Lp, hpeers]
        rfl
      · rw [Lx, hpeers]
        rfl
  · intro h
    simp [featureV, h]

/-- Claim C7 witness: the theorem applied to a concrete corpus and edge
feature at a node none of the relations touch. -/
theorem query_empty_when_undefined_witness :
    (∀ e ∈ sampleEdges, e.src ≠ 1) ∧
    (∀ m ∈ nodes tinyCorpus, m ≠ 1 → tinyCorpus.otype m ≠ tinyCorpus.otype 1) ∧
    Ef sampleEdges 1 = [] ∧ Et sampleEdges 1 = [] ∧ Eb sampleEdges 1 = [] ∧
    Lu tinyCorpus 1 = [] ∧ Ld tinyCorpus 1 = [] ∧ Ln tinyCorpus 1 = [] ∧
    Lp tinyCorpus 1 = [] ∧ Lx tinyCorpus 1 = [] ∧
    featureV [""] (fun _ => 0) 1 = none := by
  have h := query_empty_when_undefined tinyCorpus sampleEdges 1 [""] (fun _ => 0)
  refine ⟨by decide, by decide, h.1 (by decide), h.2.1 (by decide),
    h.2.2.1 (by decide), h.2.2.2.1 (by decide), h.2.2.2.2.1 (by decide),
    h.2.2.2.2.2.1 (by decide), (h.2.2.2.2.2.2.1 (by decide)).1,
    (h.2.2.2.2.2.2.1 (by decide)).2, h.2.2.2.2.2.2.2 rfl⟩


theorem intern_pos {pool : List String} {s : String} (h : s ∈ pool) :
    intern pool s = (pool.indexOf s, pool) := by
  unfold intern
  rw [if_pos h]

theorem intern_neg {pool : List String} {s : String} (h : s ∉ pool) :
    intern pool s = (pool.length, pool ++ [s]) := by
  unfold intern
  rw [if_neg h]

theorem strFeatStep_pool (acc : List String × (Nat → Nat)) (r : Nat × String) :
    ∃ ext, (strFeatStep acc r).1 = acc.1 ++ ext := by
  by_cases h : r.2 ∈ acc.1
  · exact ⟨[], by show (intern acc.1 r.2).2 = _; rw [intern_pos h]; simp⟩
  · exact ⟨[r.2], by show (intern acc.1 r.2).2 = _; rw [intern_neg h]⟩

theorem foldl_strFeatStep_pool (records : List (Nat × String)) :
    ∀ acc, ∃ ext, (records.foldl strFeatStep acc).1 = acc.1 ++ ext := by
  induction records with
  | nil => exact fun acc => ⟨[], by simp⟩
  | cons r rs ih =>
    intro acc
    obtain ⟨e0, h0⟩ := strFeatStep_pool acc r
    obtain ⟨e1, h1⟩ := ih (strFeatStep acc r)
    exact ⟨e0 ++ e1, by rw [List.foldl_cons, h1, h0, List.append_assoc]⟩

theorem foldl_strFeatStep_untouched (records : List (Nat × String)) :
    ∀ acc n, n ∉ records.map Prod.fst →
      (records.foldl strFeatStep acc).2 n = acc.2 n := by
  induction records with
  | nil => intro acc n _; rfl
  | cons r rs ih =>
    intro acc n hn
    rw [List.map_cons, List.mem_cons] at hn
    push_neg at hn
    rw [List.foldl_cons, ih _ n hn.2]
    show (if n = r.1 then _ else acc.2 n) = acc.2 n
    rw [if_neg hn.1]

theorem foldl_strFeatStep_main (records : List (Nat × String)) :
    ∀ acc n v, (∃ t, acc.1 = "" :: t) →
      (records.map Prod.fst).Nodup → (n, v) ∈ records →
      (v = "" → (records.foldl strFeatStep acc).2 n = 0) ∧
      (v ≠ "" → (records.foldl strFeatStep acc).2 n ≠ 0 ∧
        poolLookup (records.foldl strFeatStep acc).1
          ((records.foldl strFeatStep acc).2 n) = v) := by
  induction records with
  | nil => intro acc n v _ _ hmem; cases hmem
  | cons r rs ih =>
    intro acc n v hinv hnodup hmem
    obtain ⟨t, ht⟩ := hinv
    have hinv' : ∃ t', (strFeatStep acc r).1 = "" :: t' := by
      obtain ⟨ext, hext⟩ := strFeatStep_pool acc r
      exact ⟨t ++ ext, by rw [hext, ht]; rfl⟩
    rw [List.map_cons, List.nodup_cons] at hnodup
    rcases List.mem_cons.mp hmem with heq | hmem'
    · have hr1 : r.1 = n := by rw [← heq]
      have hr2 : r.2 = v := by rw [← heq]
      have hnotin : n ∉ rs.map Prod.fst := hr1 ▸ hnodup.1
      have hidx : (rs.foldl strFeatStep (strFeatStep acc r)).2 n
          = (intern acc.1 r.2).1 := by
        rw [foldl_strFeatStep_untouched rs _ n hnotin]
        show (if n = r.1 then _ else _) = _
        rw [if_pos hr1.symm]
      obtain ⟨ext, hext⟩ := foldl_strFeatStep_pool rs (strFeatStep acc r)
      constructor
      · intro hv
        have hmm : "" ∈ acc.1 := by
          rw [ht]
          exact List.mem_cons_self _ _
        calc ((r :: rs).foldl strFeatStep acc).2 n
            = (intern acc.1 r.2).1 := by rw [List.foldl_cons, hidx]
          _ = (intern acc.1 "").1 := by rw [hr2, hv]
          _ = List.indexOf "" acc.1 := by rw [intern_pos hmm]
          _ = 0 := by rw [ht]; exact List.indexOf_cons_self _ _
      · intro hv
        rw [List.foldl_cons, hidx, hr2]
        by_cases hmemp : v ∈ acc.1
        · rw [intern_pos hmemp]
          have hlt : List.indexOf v acc.1 < acc.1.length :=
            List.indexOf_lt_length.mpr hmemp
          have hget : acc.1[List.indexOf v acc.1] = v :=
            List.getElem_indexOf hlt
          have hne0 : List.indexOf v acc.1 ≠ 0 := by
            rw [ht, List.indexOf_cons_ne _ (fun h => hv h.symm)]
            exact Nat.succ_ne_zero _
          refine ⟨hne0, ?_⟩
          have hpool : (strFeatStep acc r).1 = acc.1 := by
            show (intern acc.1 r.2).2 = acc.1
            rw [hr2, intern_pos hmemp]
          show poolLookup ((rs.foldl strFeatStep (strFeatStep acc r))).1
            (List.indexOf v acc.1) = v
          rw [poolLookup, hext, hpool,
            List.getD_eq_getElem?_getD, List.getElem?_append_left hlt,
            List.getElem?_eq_getElem hlt, Option.getD_some, hget]
        · rw [intern_neg hmemp]
          have hne0 : acc.1.length ≠ 0 := by
            rw [ht]
            exact Nat.succ_ne_zero _
          refine ⟨hne0, ?_⟩
          have hpool : (strFeatStep acc r).1 = acc.1 ++ [v] := by
            show (intern acc.1 r.2).2 = acc.1 ++ [v]
            rw [hr2, intern_neg hmemp]
          have hlt : acc.1.length < (acc.1 ++ [v]).length := by
            simp
          show poolLookup ((rs.foldl strFeatStep (strFeatStep acc r))).1
            acc.1.length = v
          rw [poolLookup, hext, hpool,
            List.getD_eq_getElem?_getD, List.getElem?_append_left hlt,
            List.getElem?_eq_getElem hlt, Option.getD_some,
            List.getElem_append_right (le_refl acc.1.length)]
          simp
    · exact ih (strFeatStep acc r) n v hinv' hnodup.2 hmem'

/-- Claim C2 (amended): for every node feature and every node in its domain,
an explicitly recorded empty-string value is reported by `v(node)` as absent —
the string pool assigns the empty string id 0, the same id used as the absence
sentinel in the per-node index, so a recorded empty string is indistinguishable
from no recorded value; every recorded non-empty value is reported present and
equal to the recorded string, distinct from the absent sentinel. -/
theorem compileStrFeature_v (records : List (Nat × String)) (n : Nat) (v : String)
    (hnodup : (records.map Prod.fst).Nodup) (hmem : (n, v) ∈ records) :
    featureV (compileStrFeature records).1 (compileStrFeature records).2 n
      = if v = "" then none else some v := by
  have h := foldl_strFeatStep_main records ([""], fun _ => 0) n v
    ⟨[], rfl⟩ hnodup hmem
  unfold compileStrFeature featureV
  by_cases hv : v = ""
  · rw [if_pos hv, if_pos (h.1 hv)]
  · obtain ⟨hne, hlook⟩ := h.2 hv
    rw [if_neg hv, if_neg hne, hlook]

/-- Claim C2 counterexample: compiling the single record `1 -> ""` (scenario
S4 sets `gloss 1 -> ""`) yields a feature whose `v(1)` is the absent sentinel,
not a present empty string — the recorded empty string is interned as id 0,
which the reader cannot distinguish from the absence sentinel. -/
theorem recorded_empty_string_reads_absent :
    featureV (compileStrFeature [(1, "")]).1 (compileStrFeature [(1, "")]).2 1 = none ∧
    featureV (compileStrFeature [(1, "")]).1 (compileStrFeature [(1, "")]).2 1 ≠ some "" := by
  constructor
  · rfl
  · intro h
    cases h.symm.trans (rfl : featureV (compileStrFeature [(1, "")]).1 (compileStrFeature [(1, "")]).2 1 = none)

/-- Claim C2 witness: the amended theorem applied to a concrete feature with
a non-empty value on node 1 and an empty value on node 2. -/
theorem compileStrFeature_v_witness :
    (([(1, "a"), (2, "")].map Prod.fst).Nodup) ∧
    ((1, "a") ∈ [(1, "a"), (2, "")]) ∧ ((2, "") ∈ [(1, "a"), (2, "")]) ∧
    featureV (compileStrFeature [(1, "a"), (2, "")]).1
      (compileStrFeature [(1, "a"), (2, "")]).2 1 = (if "a" = "" then none else some "a") ∧
    featureV (compileStrFeature [(1, "a"), (2, "")]).1
      (compileStrFeature [(1, "a"), (2, "")]).2 2 = (if "" = "" then none else some "") :=
  ⟨by decide, by decide, by decide,
   compileStrFeature_v _ 1 "a" (by decide) (by decide),
   compileStrFeature_v _ 2 "" (by decide) (by decide)⟩


end ContextFabric
